import Mathlib

/-!
# The pono `Abstractor` base class (modifiers/abstractor.h)

A shallow embedding of `pono::Abstractor`: the two translation caches
(`smt::UnorderedTermMap`), the lookups `abstract` and `concrete`, the getter
`abs_ts`, the hook `do_abstraction` and the constructor, followed by theorems
about them.

Member functions are embedded in state-passing style: a call takes the
object, and yields either an exception or the returned value together with
the object after the call.
-/

/-! ## Terms and the translation cache -/

/-- Modelled from the spec: `smt::Term` is declared outside `abstractor.h`. A
term is an opaque, immutable node of the shared term context, compared
structurally; it is represented by the identifier of its node. -/
structure Term where
  id : Nat
  deriving DecidableEq, Repr

/-- The C++ exceptions that the embedded code can raise: `std::out_of_range`
(thrown by `unordered_map::at` for an absent key) and the configuration error
of the spec, raised when a transition system cannot be built on a term
context. -/
inductive Exception where
  | out_of_range
  | ConfigurationError
  deriving DecidableEq, Repr

/-- The type `smt::UnorderedTermMap`, a `std::unordered_map` from terms to
terms: a finite list of key/value entries in which no key occurs twice. -/
structure UnorderedTermMap where
  entries : List (Term × Term)
  nodup_keys : (entries.map Prod.fst).Nodup

/-- The keys of a map. -/
def UnorderedTermMap.keys (m : UnorderedTermMap) : List Term :=
  m.entries.map Prod.fst

/-- The default-constructed (empty) map. -/
def UnorderedTermMap.empty : UnorderedTermMap :=
  ⟨[], List.nodup_nil⟩

/-- The call `m.find(t)`: the entry whose key is `t`, or `none` for the
past-the-end iterator `m.end()`. -/
def UnorderedTermMap.find (m : UnorderedTermMap) (t : Term) : Option (Term × Term) :=
  m.entries.find? (fun e => e.1 == t)

/-- The checked access `m.at(t)`: the value stored under `t`; throws
`std::out_of_range` when `t` is not a key. -/
def UnorderedTermMap.at_ (m : UnorderedTermMap) (t : Term) : Except Exception Term :=
  match m.entries.lookup t with
  | some v => .ok v
  | none => .error .out_of_range

/-- The term `t` is a key of the map. -/
def UnorderedTermMap.has_key (m : UnorderedTermMap) (t : Term) : Prop :=
  t ∈ m.keys

/-- The map holds the mapping `m[t] = u`. -/
def UnorderedTermMap.maps (m : UnorderedTermMap) (t u : Term) : Prop :=
  (t, u) ∈ m.entries

instance (m : UnorderedTermMap) (t : Term) : Decidable (m.has_key t) :=
  inferInstanceAs (Decidable (t ∈ m.keys))

instance (m : UnorderedTermMap) (t u : Term) : Decidable (m.maps t u) :=
  inferInstanceAs (Decidable ((t, u) ∈ m.entries))

/-! ## Transition systems -/

/-- Modelled from the spec: `smt::SmtSolver` is declared outside
`abstractor.h`. It is the shared solving/term context of a transition system;
`shareable` records whether the context can be shared with a freshly
constructed system. -/
structure SmtSolver where
  id : Nat
  shareable : Bool
  deriving DecidableEq, Repr

/-- Modelled from the spec: the two variants of a transition system. -/
inductive Variant where
  | Functional
  | Relational
  deriving DecidableEq, Repr

/-- Modelled from the spec: the contents of a transition system, which
refinement changes: its state variables, the conjuncts of its initial
condition, the conjuncts of its transition relation and its per-variable
next-state updates. -/
structure TSContents where
  statevars_ : List Term
  init_ : List Term
  trans_ : List Term
  state_updates_ : List (Term × Term)
  deriving DecidableEq, Repr

/-- Modelled from the spec: `TransitionSystem` is declared in `core/ts.h`,
outside `abstractor.h`. A system is tagged by its variant, fixed when it is
constructed, uses a term context, and owns its contents. -/
structure TransitionSystem where
  variant : Variant
  solver_ : SmtSolver
  contents : TSContents
  deriving DecidableEq, Repr

/-- Modelled from the spec: the variant query `is_functional()`. -/
def TransitionSystem.is_functional (ts : TransitionSystem) : Bool :=
  ts.variant == Variant.Functional

/-- Modelled from the spec: the accessor `solver()`. -/
def TransitionSystem.solver (ts : TransitionSystem) : SmtSolver :=
  ts.solver_

/-- The contents of a freshly constructed, empty system. -/
def TSContents.empty : TSContents :=
  { statevars_ := [], init_ := [], trans_ := [], state_updates_ := [] }

/-- Modelled from the spec: the constructor `FunctionalTransitionSystem(solver)`
of `core/fts.h`: a fresh empty Functional system sharing the given term context;
fails with a ConfigurationError when the context cannot be shared. -/
def FunctionalTransitionSystem (s : SmtSolver) : Except Exception TransitionSystem :=
  if s.shareable then
    .ok { variant := Variant.Functional, solver_ := s, contents := TSContents.empty }
  else
    .error .ConfigurationError

/-- Modelled from the spec: the constructor `RelationalTransitionSystem(solver)`
of `core/rts.h`: a fresh empty Relational system sharing the given term context;
fails with a ConfigurationError when the context cannot be shared. -/
def RelationalTransitionSystem (s : SmtSolver) : Except Exception TransitionSystem :=
  if s.shareable then
    .ok { variant := Variant.Relational, solver_ := s, contents := TSContents.empty }
  else
    .error .ConfigurationError

/-! ## The Abstractor -/

/-- The data members of `class Abstractor`. `orig_ts_` is a const reference
to the caller's system; the state records the system it refers to. -/
structure Abstractor where
  orig_ts_ : TransitionSystem
  abs_ts_ : TransitionSystem
  abstraction_cache_ : UnorderedTermMap
  concretization_cache_ : UnorderedTermMap

/-- The constructor `Abstractor(const TransitionSystem & ts)`: binds `orig_ts_`
to `ts`, leaves both caches default-constructed, and assigns to `abs_ts_` a
fresh system built on `orig_ts_.solver()`, Functional when
`orig_ts_.is_functional()` and Relational otherwise. -/
def Abstractor.construct (ts : TransitionSystem) : Except Exception Abstractor :=
  if ts.is_functional then
    match FunctionalTransitionSystem ts.solver with
    | .ok fts =>
      .ok { orig_ts_ := ts, abs_ts_ := fts,
            abstraction_cache_ := UnorderedTermMap.empty,
            concretization_cache_ := UnorderedTermMap.empty }
    | .error e => .error e
  else
    match RelationalTransitionSystem ts.solver with
    | .ok rts =>
      .ok { orig_ts_ := ts, abs_ts_ := rts,
            abstraction_cache_ := UnorderedTermMap.empty,
            concretization_cache_ := UnorderedTermMap.empty }
    | .error e => .error e

/-- The member function `abstract(t)`: when `abstraction_cache_.find(t)` is not
`end()`, the result is `abstraction_cache_.at(t)`; otherwise it is `t`. -/
def Abstractor.abstract (self : Abstractor) (t : Term) :
    Except Exception (Term × Abstractor) :=
  if (self.abstraction_cache_.find t).isSome then
    match self.abstraction_cache_.at_ t with
    | .ok res => .ok (res, self)
    | .error e => .error e
  else
    .ok (t, self)

/-- The member function `concrete(t)`: when `concretization_cache_.find(t)` is
not `end()`, the result is `concretization_cache_.at(t)`; otherwise it is `t`. -/
def Abstractor.concrete (self : Abstractor) (t : Term) :
    Except Exception (Term × Abstractor) :=
  if (self.concretization_cache_.find t).isSome then
    match self.concretization_cache_.at_ t with
    | .ok res => .ok (res, self)
    | .error e => .error e
  else
    .ok (t, self)

/-- The getter `abs_ts()`: the abstract system held by the object. -/
def Abstractor.abs_ts (self : Abstractor) : TransitionSystem :=
  self.abs_ts_

/-- A write through the non-const reference returned by `abs_ts()`: the
abstract system is replaced in place by `f` of its current value; no other
member is touched. -/
def Abstractor.abs_ts_update (self : Abstractor)
    (f : TransitionSystem → TransitionSystem) : Abstractor :=
  { self with abs_ts_ := f self.abs_ts_ }

/-- The member function `do_abstraction()`, whose body is empty. -/
def Abstractor.do_abstraction (self : Abstractor) : Except Exception (Unit × Abstractor) :=
  .ok ((), self)

/-- The value returned by a call, forgetting the object after the call. -/
def returned {α : Type} (r : Except Exception (α × Abstractor)) : Except Exception α :=
  match r with
  | .ok (v, _) => .ok v
  | .error e => .error e

/-- The object after a call, forgetting the returned value. -/
def after {α : Type} (r : Except Exception (α × Abstractor)) : Except Exception Abstractor :=
  match r with
  | .ok (_, s) => .ok s
  | .error e => .error e

/-- The composition `concrete(abstract(t))`: `abstract` is called first and
`concrete` is called on its result, on the object as `abstract` left it. -/
def Abstractor.concrete_of_abstract (self : Abstractor) (t : Term) :
    Except Exception (Term × Abstractor) :=
  match self.abstract t with
  | .ok (r, s) => s.concrete r
  | .error e => .error e

/-- The object with its two caches exchanged. -/
def Abstractor.mirror (self : Abstractor) : Abstractor :=
  { self with abstraction_cache_ := self.concretization_cache_,
              concretization_cache_ := self.abstraction_cache_ }

/-! ## Writes to the caches and to the abstract system -/

/-- The call `m.insert({k, v})` of `std::unordered_map`: the entry is added
when `k` is not yet a key, and the map is left as it is otherwise. -/
def UnorderedTermMap.insert (m : UnorderedTermMap) (k v : Term) : UnorderedTermMap :=
  if h : k ∈ m.entries.map Prod.fst then m
  else ⟨(k, v) :: m.entries, List.nodup_cons.2 ⟨h, m.nodup_keys⟩⟩

/-- The assignment `m[k] = v` of `std::unordered_map`: afterwards `k` is mapped
to `v`, whatever it was mapped to before. -/
def UnorderedTermMap.assign (m : UnorderedTermMap) (k v : Term) : UnorderedTermMap :=
  ⟨(k, v) :: m.entries.filter (fun e => !(e.1 == k)),
    List.nodup_cons.2
      ⟨fun hk => by
          obtain ⟨e, he, hek⟩ := List.mem_map.1 hk
          have := (List.mem_filter.1 he).2
          simp [hek] at this,
        (m.nodup_keys.sublist ((List.filter_sublist m.entries).map Prod.fst))⟩⟩

/-- Modelled from the spec: a refinement mutation of a transition system
changes its contents in place; the variant tag and the term context are fixed
when the system is constructed. -/
def TransitionSystem.mutate (ts : TransitionSystem) (f : TSContents → TSContents) :
    TransitionSystem :=
  { ts with contents := f ts.contents }

/-- Modelled from the spec: the mutation that adds the predicate `p` to the
transition relation. -/
def TSContents.constrain_trans (p : Term) (c : TSContents) : TSContents :=
  { c with trans_ := p :: c.trans_ }

/-- The operations that act on an Abstractor: the public member functions,
the protected hook, the writes a strategy makes to the two caches, and a
refinement mutation applied through the reference returned by `abs_ts()`. -/
inductive Op where
  | abstract (t : Term)
  | concrete (t : Term)
  | do_abstraction
  | insert_abstraction (k v : Term)
  | assign_abstraction (k v : Term)
  | insert_concretization (k v : Term)
  | assign_concretization (k v : Term)
  | refine (f : TSContents → TSContents)

/-- The object after one operation. -/
def Abstractor.step (self : Abstractor) : Op → Except Exception Abstractor
  | .abstract t => after (self.abstract t)
  | .concrete t => after (self.concrete t)
  | .do_abstraction => after self.do_abstraction
  | .insert_abstraction k v =>
    .ok { self with abstraction_cache_ := self.abstraction_cache_.insert k v }
  | .assign_abstraction k v =>
    .ok { self with abstraction_cache_ := self.abstraction_cache_.assign k v }
  | .insert_concretization k v =>
    .ok { self with concretization_cache_ := self.concretization_cache_.insert k v }
  | .assign_concretization k v =>
    .ok { self with concretization_cache_ := self.concretization_cache_.assign k v }
  | .refine f => .ok (self.abs_ts_update (fun ts => ts.mutate f))

/-- The object after a sequence of operations, applied from left to right. -/
def Abstractor.run (self : Abstractor) : List Op → Except Exception Abstractor
  | [] => .ok self
  | op :: ops =>
    match self.step op with
    | .ok s => s.run ops
    | .error e => .error e

/-- The composition `abstract(abstract(t))`: the second call is made on the
result of the first, on the object as the first call left it. -/
def Abstractor.abstract_of_abstract (self : Abstractor) (t : Term) :
    Except Exception (Term × Abstractor) :=
  match self.abstract t with
  | .ok (r, s) => s.abstract r
  | .error e => .error e

/-- The object after a strategy has written `abstraction_cache_[k] = v`. -/
def Abstractor.assign_abstraction (self : Abstractor) (k v : Term) : Abstractor :=
  { self with abstraction_cache_ := self.abstraction_cache_.assign k v }

/-- The object after a strategy has written `concretization_cache_[k] = v`. -/
def Abstractor.assign_concretization (self : Abstractor) (k v : Term) : Abstractor :=
  { self with concretization_cache_ := self.concretization_cache_.assign k v }

/-- The object after a strategy has called `abstraction_cache_.insert({k, v})`. -/
def Abstractor.insert_abstraction (self : Abstractor) (k v : Term) : Abstractor :=
  { self with abstraction_cache_ := self.abstraction_cache_.insert k v }

/-- The object after a strategy has called
`concretization_cache_.insert({k, v})`. -/
def Abstractor.insert_concretization (self : Abstractor) (k v : Term) : Abstractor :=
  { self with concretization_cache_ := self.concretization_cache_.insert k v }

/-! ## Sample data -/

/-- A term `x`. -/
def sample_x : Term := ⟨0⟩

/-- A term `p0`, distinct from `x`. -/
def sample_p0 : Term := ⟨1⟩

/-- A term `p1`, distinct from `x` and `p0`. -/
def sample_p1 : Term := ⟨2⟩

/-- A term context that can be shared. -/
def sample_solver : SmtSolver := { id := 0, shareable := true }

/-- A Functional system with the one state variable `x`. -/
def sample_fts : TransitionSystem :=
  { variant := Variant.Functional, solver_ := sample_solver,
    contents := { statevars_ := [sample_x], init_ := [], trans_ := [],
                  state_updates_ := [] } }

/-- A Relational system with the one state variable `x`. -/
def sample_rts : TransitionSystem :=
  { variant := Variant.Relational, solver_ := sample_solver,
    contents := { statevars_ := [sample_x], init_ := [], trans_ := [],
                  state_updates_ := [] } }

/-- The Abstractor over `sample_fts` after a strategy has installed
`abstraction_cache_[x] = p0` and `concretization_cache_[p0] = x`. -/
def sample_abstractor : Abstractor :=
  { orig_ts_ := sample_fts,
    abs_ts_ := { variant := Variant.Functional, solver_ := sample_solver,
                 contents := TSContents.empty },
    abstraction_cache_ := ⟨[(sample_x, sample_p0)], by decide⟩,
    concretization_cache_ := ⟨[(sample_p0, sample_x)], by decide⟩ }

/-- The Abstractor freshly constructed over `sample_fts`. -/
def sample_fresh : Abstractor :=
  { orig_ts_ := sample_fts,
    abs_ts_ := { variant := Variant.Functional, solver_ := sample_solver,
                 contents := TSContents.empty },
    abstraction_cache_ := UnorderedTermMap.empty,
    concretization_cache_ := UnorderedTermMap.empty }

/-- A run of a strategy and a refinement loop: the two caches are filled, the
lookups are called, and the predicate `p1` is added to the transition relation
of the abstract system. -/
def sample_ops : List Op :=
  [Op.do_abstraction, Op.insert_abstraction sample_x sample_p0,
   Op.assign_concretization sample_p0 sample_x, Op.abstract sample_x,
   Op.refine (TSContents.constrain_trans sample_p1), Op.concrete sample_p0]

/-- A term context that cannot be shared. -/
def sample_closed_solver : SmtSolver := { id := 1, shareable := false }

/-- A Relational system on the context that cannot be shared. -/
def sample_closed_rts : TransitionSystem :=
  { variant := Variant.Relational, solver_ := sample_closed_solver,
    contents := TSContents.empty }

/-- An Abstractor over `sample_rts` holding the same two caches as
`sample_abstractor`, with an abstract system that refinement has changed. -/
def sample_refined : Abstractor :=
  { orig_ts_ := sample_rts,
    abs_ts_ := { variant := Variant.Relational, solver_ := sample_solver,
                 contents := TSContents.constrain_trans sample_p1 TSContents.empty },
    abstraction_cache_ := ⟨[(sample_x, sample_p0)], by decide⟩,
    concretization_cache_ := ⟨[(sample_p0, sample_x)], by decide⟩ }

/-- An Abstractor whose abstraction cache holds the chain `x -> p0`,
`p0 -> p1`. -/
def sample_chain : Abstractor :=
  { orig_ts_ := sample_fts,
    abs_ts_ := { variant := Variant.Functional, solver_ := sample_solver,
                 contents := TSContents.empty },
    abstraction_cache_ := ⟨[(sample_x, sample_p0), (sample_p0, sample_p1)], by decide⟩,
    concretization_cache_ := UnorderedTermMap.empty }

/-! ## Lemmas on the cache operations -/

theorem UnorderedTermMap.find_isSome_iff (m : UnorderedTermMap) (t : Term) :
    (m.find t).isSome = true ↔ m.has_key t := by
  unfold UnorderedTermMap.find UnorderedTermMap.has_key UnorderedTermMap.keys
  rw [List.find?_isSome]
  constructor
  · rintro ⟨e, he, hk⟩
    have : e.1 = t := by simpa using hk
    exact this ▸ List.mem_map_of_mem Prod.fst he
  · intro h
    obtain ⟨e, he, hk⟩ := List.mem_map.1 h
    exact ⟨e, he, by simp [hk]⟩

theorem lookup_of_mem_nodup (l : List (Term × Term)) (t u : Term)
    (nd : (l.map Prod.fst).Nodup) (h : (t, u) ∈ l) : l.lookup t = some u := by
  induction l with
  | nil => cases h
  | cons p l ih =>
    obtain ⟨k, v⟩ := p
    rw [List.map_cons, List.nodup_cons] at nd
    rcases List.mem_cons.1 h with heq | hmem
    · cases heq
      simp [List.lookup]
    · have hne : t ≠ k := by
        rintro rfl
        exact nd.1 (List.mem_map.2 ⟨(t, u), hmem, rfl⟩)
      have hb : (t == k) = false := by simpa using hne
      simp only [List.lookup, hb]
      exact ih nd.2 hmem

theorem lookup_of_not_mem_keys (l : List (Term × Term)) (t : Term)
    (h : t ∉ l.map Prod.fst) : l.lookup t = none := by
  induction l with
  | nil => rfl
  | cons p l ih =>
    obtain ⟨k, v⟩ := p
    rw [List.map_cons, List.mem_cons, not_or] at h
    have hb : (t == k) = false := by simpa using h.1
    simp only [List.lookup, hb]
    exact ih h.2

theorem lookup_isSome_of_mem_keys (l : List (Term × Term)) (t : Term)
    (h : t ∈ l.map Prod.fst) : ∃ u, l.lookup t = some u ∧ (t, u) ∈ l := by
  induction l with
  | nil => cases h
  | cons p l ih =>
    obtain ⟨k, v⟩ := p
    by_cases hk : t = k
    · subst hk
      exact ⟨v, by simp [List.lookup], List.mem_cons_self _ _⟩
    · have hb : (t == k) = false := by simpa using hk
      rw [List.map_cons, List.mem_cons] at h
      rcases h with h | h
      · exact absurd h hk
      · obtain ⟨u, hu, hm⟩ := ih h
        exact ⟨u, by simp only [List.lookup, hb]; exact hu, List.mem_cons_of_mem _ hm⟩

theorem UnorderedTermMap.at_of_maps (m : UnorderedTermMap) (t u : Term)
    (h : m.maps t u) : m.at_ t = .ok u := by
  unfold UnorderedTermMap.at_
  rw [lookup_of_mem_nodup m.entries t u m.nodup_keys h]

theorem UnorderedTermMap.has_key_of_maps (m : UnorderedTermMap) (t u : Term)
    (h : m.maps t u) : m.has_key t :=
  List.mem_map.2 ⟨(t, u), h, rfl⟩

theorem UnorderedTermMap.at_of_has_key (m : UnorderedTermMap) (t : Term)
    (h : m.has_key t) : ∃ u, m.at_ t = .ok u ∧ m.maps t u := by
  obtain ⟨u, hu, hm⟩ := lookup_isSome_of_mem_keys m.entries t h
  exact ⟨u, by unfold UnorderedTermMap.at_; rw [hu], hm⟩

theorem Abstractor.abstract_of_maps (a : Abstractor) (t u : Term)
    (h : a.abstraction_cache_.maps t u) : a.abstract t = .ok (u, a) := by
  have hk := (a.abstraction_cache_.find_isSome_iff t).2
    (a.abstraction_cache_.has_key_of_maps t u h)
  unfold Abstractor.abstract
  rw [if_pos hk, a.abstraction_cache_.at_of_maps t u h]

theorem Abstractor.abstract_of_not_key (a : Abstractor) (t : Term)
    (h : ¬ a.abstraction_cache_.has_key t) : a.abstract t = .ok (t, a) := by
  have hk : ¬ (a.abstraction_cache_.find t).isSome = true :=
    fun hs => h ((a.abstraction_cache_.find_isSome_iff t).1 hs)
  unfold Abstractor.abstract
  rw [if_neg hk]

theorem Abstractor.concrete_of_maps (a : Abstractor) (t u : Term)
    (h : a.concretization_cache_.maps t u) : a.concrete t = .ok (u, a) := by
  have hk := (a.concretization_cache_.find_isSome_iff t).2
    (a.concretization_cache_.has_key_of_maps t u h)
  unfold Abstractor.concrete
  rw [if_pos hk, a.concretization_cache_.at_of_maps t u h]

theorem Abstractor.concrete_of_not_key (a : Abstractor) (t : Term)
    (h : ¬ a.concretization_cache_.has_key t) : a.concrete t = .ok (t, a) := by
  have hk : ¬ (a.concretization_cache_.find t).isSome = true :=
    fun hs => h ((a.concretization_cache_.find_isSome_iff t).1 hs)
  unfold Abstractor.concrete
  rw [if_neg hk]

theorem returned_abstract_update (a : Abstractor)
    (f : TransitionSystem → TransitionSystem) (t : Term) :
    returned ((a.abs_ts_update f).abstract t) = returned (a.abstract t) := by
  unfold Abstractor.abstract Abstractor.abs_ts_update
  dsimp only
  split
  · cases a.abstraction_cache_.at_ t <;> rfl
  · rfl

theorem returned_concrete_update (a : Abstractor)
    (f : TransitionSystem → TransitionSystem) (t : Term) :
    returned ((a.abs_ts_update f).concrete t) = returned (a.concrete t) := by
  unfold Abstractor.concrete Abstractor.abs_ts_update
  dsimp only
  split
  · cases a.concretization_cache_.at_ t <;> rfl
  · rfl

theorem Abstractor.abstract_total (a : Abstractor) (t : Term) :
    ∃ r, a.abstract t = .ok (r, a) := by
  by_cases h : a.abstraction_cache_.has_key t
  · obtain ⟨u, _, hm⟩ := a.abstraction_cache_.at_of_has_key t h
    exact ⟨u, a.abstract_of_maps t u hm⟩
  · exact ⟨t, a.abstract_of_not_key t h⟩

theorem Abstractor.concrete_total (a : Abstractor) (t : Term) :
    ∃ r, a.concrete t = .ok (r, a) := by
  by_cases h : a.concretization_cache_.has_key t
  · obtain ⟨u, _, hm⟩ := a.concretization_cache_.at_of_has_key t h
    exact ⟨u, a.concrete_of_maps t u hm⟩
  · exact ⟨t, a.concrete_of_not_key t h⟩

theorem Abstractor.construct_ok (ts : TransitionSystem) (a : Abstractor)
    (h : Abstractor.construct ts = .ok a) :
    a.orig_ts_ = ts ∧ a.abs_ts_.variant = ts.variant ∧
      a.abstraction_cache_ = UnorderedTermMap.empty ∧
      a.concretization_cache_ = UnorderedTermMap.empty := by
  unfold Abstractor.construct FunctionalTransitionSystem RelationalTransitionSystem at h
  by_cases hf : ts.is_functional = true
  · have hv : ts.variant = Variant.Functional := by
      simpa [TransitionSystem.is_functional] using hf
    rw [if_pos hf] at h
    by_cases hs : ts.solver.shareable = true
    · rw [if_pos hs] at h
      cases h
      exact ⟨rfl, hv.symm, rfl, rfl⟩
    · rw [if_neg hs] at h
      cases h
  · have hv : ts.variant = Variant.Relational := by
      cases hvar : ts.variant
      · exact absurd (by simp [TransitionSystem.is_functional, hvar]) hf
      · rfl
    rw [if_neg hf] at h
    by_cases hs : ts.solver.shareable = true
    · rw [if_pos hs] at h
      cases h
      exact ⟨rfl, hv.symm, rfl, rfl⟩
    · rw [if_neg hs] at h
      cases h

theorem Abstractor.construct_succeeds (ts : TransitionSystem)
    (hs : ts.solver.shareable = true) : ∃ a, Abstractor.construct ts = .ok a := by
  unfold Abstractor.construct FunctionalTransitionSystem RelationalTransitionSystem
  by_cases hf : ts.is_functional = true
  · rw [if_pos hf, if_pos hs]
    exact ⟨_, rfl⟩
  · rw [if_neg hf, if_pos hs]
    exact ⟨_, rfl⟩

theorem Abstractor.step_ok (a : Abstractor) (op : Op) :
    ∃ s, a.step op = .ok s ∧ s.orig_ts_ = a.orig_ts_ ∧
      s.abs_ts_.variant = a.abs_ts_.variant := by
  cases op with
  | abstract t =>
    obtain ⟨r, hr⟩ := a.abstract_total t
    exact ⟨a, by simp [Abstractor.step, hr, after], rfl, rfl⟩
  | concrete t =>
    obtain ⟨r, hr⟩ := a.concrete_total t
    exact ⟨a, by simp [Abstractor.step, hr, after], rfl, rfl⟩
  | do_abstraction => exact ⟨a, rfl, rfl, rfl⟩
  | insert_abstraction k v => exact ⟨_, rfl, rfl, rfl⟩
  | assign_abstraction k v => exact ⟨_, rfl, rfl, rfl⟩
  | insert_concretization k v => exact ⟨_, rfl, rfl, rfl⟩
  | assign_concretization k v => exact ⟨_, rfl, rfl, rfl⟩
  | refine f => exact ⟨_, rfl, rfl, rfl⟩

theorem Abstractor.run_ok (ops : List Op) (a : Abstractor) :
    ∃ s, a.run ops = .ok s ∧ s.orig_ts_ = a.orig_ts_ ∧
      s.abs_ts_.variant = a.abs_ts_.variant := by
  induction ops generalizing a with
  | nil => exact ⟨a, rfl, rfl, rfl⟩
  | cons op ops ih =>
    obtain ⟨s, hs, ho, hv⟩ := a.step_ok op
    obtain ⟨s', hs', ho', hv'⟩ := ih s
    refine ⟨s', ?_, ho'.trans ho, hv'.trans hv⟩
    simp only [Abstractor.run, hs]
    exact hs'

/-! ## The lookups -/

/-- C1: for every Abstractor state and every term `t` that is not a key of
the abstraction cache, `abstract(t)` returns `t` itself. -/
theorem abstract_identity_fallback (a : Abstractor) (t : Term)
    (h : ¬ a.abstraction_cache_.has_key t) : returned (a.abstract t) = .ok t := by
  rw [a.abstract_of_not_key t h]
  rfl

theorem abstract_identity_fallback_witness :
    ¬ sample_abstractor.abstraction_cache_.has_key sample_p0 ∧
      returned (sample_abstractor.abstract sample_p0) = .ok sample_p0 :=
  ⟨by decide, abstract_identity_fallback sample_abstractor sample_p0 (by decide)⟩

/-- C2: for every Abstractor state and all terms `t`, `u` with
`abstraction_cache_[t] = u`, the call `abstract(t)` returns `u`, and a second
call `abstract(t)` on the object as the first call left it returns `u` again. -/
theorem abstract_mapped_repeatable (a : Abstractor) (t u : Term)
    (h : a.abstraction_cache_.maps t u) :
    ∃ s, a.abstract t = .ok (u, s) ∧ ∃ s', s.abstract t = .ok (u, s') :=
  ⟨a, a.abstract_of_maps t u h, a, a.abstract_of_maps t u h⟩

theorem abstract_mapped_repeatable_witness :
    sample_abstractor.abstraction_cache_.maps sample_x sample_p0 ∧
      ∃ s, sample_abstractor.abstract sample_x = .ok (sample_p0, s) ∧
        ∃ s', s.abstract sample_x = .ok (sample_p0, s') :=
  ⟨by decide, abstract_mapped_repeatable sample_abstractor sample_x sample_p0 (by decide)⟩

/-- C3: `concrete` is the mirror image of `abstract` over the concretization
cache: for every Abstractor state and every term `t`, `concrete(t)` returns
`concretization_cache_[t]` when `t` is a key of the concretization cache and
`t` otherwise, which is what `abstract(t)` returns on the object with its two
caches exchanged. -/
theorem concrete_mirrors_abstract (a : Abstractor) (t : Term) :
    (∀ u, a.concretization_cache_.maps t u → returned (a.concrete t) = .ok u) ∧
    (a.concretization_cache_.has_key t →
      ∃ u, a.concretization_cache_.maps t u ∧ returned (a.concrete t) = .ok u) ∧
    (¬ a.concretization_cache_.has_key t → returned (a.concrete t) = .ok t) ∧
    returned (a.concrete t) = returned (a.mirror.abstract t) := by
  refine ⟨fun u h => ?_, fun h => ?_, fun h => ?_, ?_⟩
  · rw [a.concrete_of_maps t u h]
    rfl
  · obtain ⟨u, _, hm⟩ := a.concretization_cache_.at_of_has_key t h
    refine ⟨u, hm, ?_⟩
    rw [a.concrete_of_maps t u hm]
    rfl
  · rw [a.concrete_of_not_key t h]
    rfl
  · unfold Abstractor.concrete Abstractor.abstract Abstractor.mirror
    dsimp only
    split
    · cases a.concretization_cache_.at_ t <;> rfl
    · rfl

theorem concrete_mirrors_abstract_witness :
    sample_abstractor.concretization_cache_.maps sample_p0 sample_x ∧
      returned (sample_abstractor.concrete sample_p0) = .ok sample_x :=
  ⟨by decide, (concrete_mirrors_abstract sample_abstractor sample_p0).1 sample_x (by decide)⟩

/-! ## Construction and the variant of the abstract system -/

/-- C4: for every original transition system `ts`, the Abstractor constructed
over `ts` has an abstract system whose variant equals the variant of `ts`
(Functional for a Functional `ts`, Relational for a Relational `ts`); the
construction yields an Abstractor whenever the term context of `ts` can be
shared. -/
theorem construct_variant (ts : TransitionSystem) :
    (∀ a, Abstractor.construct ts = .ok a →
      a.abs_ts.variant = ts.variant ∧ a.abs_ts.is_functional = ts.is_functional) ∧
    (ts.solver.shareable = true → ∃ a, Abstractor.construct ts = .ok a ∧
      a.abs_ts.variant = ts.variant) := by
  constructor
  · intro a h
    have hv := (Abstractor.construct_ok ts a h).2.1
    exact ⟨hv, by simp only [TransitionSystem.is_functional, Abstractor.abs_ts, hv]⟩
  · intro hs
    obtain ⟨a, ha⟩ := Abstractor.construct_succeeds ts hs
    exact ⟨a, ha, (Abstractor.construct_ok ts a ha).2.1⟩

theorem construct_variant_witness :
    sample_rts.solver.shareable = true ∧
      ∃ a, Abstractor.construct sample_rts = .ok a ∧
        a.abs_ts.variant = Variant.Relational :=
  ⟨rfl, (construct_variant sample_rts).2 rfl⟩

/-- C5 (invariant I1): from the Abstractor constructed over `ts`, every
sequence of operations (`abstract`, `concrete`, `do_abstraction`, insertions
into either cache, refinement mutations through the reference returned by
`abs_ts()`) runs to a state, and in that state the variant of `abs_ts()`
equals the variant of `ts`, the original system the object still refers to. -/
theorem variant_never_flips (ts : TransitionSystem) (a0 : Abstractor) (ops : List Op)
    (h0 : Abstractor.construct ts = .ok a0) :
    ∃ a, a0.run ops = .ok a ∧ a.abs_ts.variant = ts.variant ∧
      a.abs_ts.variant = a.orig_ts_.variant := by
  obtain ⟨ho, hv, _, _⟩ := Abstractor.construct_ok ts a0 h0
  obtain ⟨a, ha, hao, hav⟩ := Abstractor.run_ok ops a0
  refine ⟨a, ha, hav.trans hv, ?_⟩
  rw [hao, ho]
  exact hav.trans hv

theorem variant_never_flips_witness :
    Abstractor.construct sample_fts = .ok sample_fresh ∧
      ∃ a, sample_fresh.run sample_ops = .ok a ∧
        a.abs_ts.variant = sample_fts.variant ∧
        a.abs_ts.variant = a.orig_ts_.variant :=
  ⟨rfl, variant_never_flips sample_fts sample_fresh sample_ops rfl⟩

/-- C6 (round trip): for every Abstractor state and all terms `v`, `x` with
`abstraction_cache_[v] = x` and `concretization_cache_[x] = v`, the call
`concrete(abstract(v))` returns `v`. -/
theorem round_trip (a : Abstractor) (v x : Term)
    (hv : a.abstraction_cache_.maps v x) (hx : a.concretization_cache_.maps x v) :
    returned (a.concrete_of_abstract v) = .ok v := by
  unfold Abstractor.concrete_of_abstract
  rw [a.abstract_of_maps v x hv]
  dsimp only
  rw [a.concrete_of_maps x v hx]
  rfl

theorem round_trip_witness :
    sample_abstractor.abstraction_cache_.maps sample_x sample_p0 ∧
      sample_abstractor.concretization_cache_.maps sample_p0 sample_x ∧
      returned (sample_abstractor.concrete_of_abstract sample_x) = .ok sample_x :=
  ⟨by decide, by decide,
    round_trip sample_abstractor sample_x sample_p0 (by decide) (by decide)⟩

/-- C7: immediately after construction over any original system, both caches
are empty, so `abstract(t)` and `concrete(t)` return `t` for every term `t`;
the construction yields an Abstractor whenever the term context of the
original system can be shared. -/
theorem construct_caches_empty (ts : TransitionSystem) :
    (∀ a, Abstractor.construct ts = .ok a →
      a.abstraction_cache_.entries = [] ∧ a.concretization_cache_.entries = [] ∧
      ∀ t, returned (a.abstract t) = .ok t ∧ returned (a.concrete t) = .ok t) ∧
    (ts.solver.shareable = true → ∃ a, Abstractor.construct ts = .ok a) := by
  refine ⟨fun a h => ?_, Abstractor.construct_succeeds ts⟩
  obtain ⟨_, _, hac, hcc⟩ := Abstractor.construct_ok ts a h
  refine ⟨by rw [hac]; rfl, by rw [hcc]; rfl, fun t => ⟨?_, ?_⟩⟩
  · rw [a.abstract_of_not_key t (by rw [hac]; exact List.not_mem_nil t)]
    rfl
  · rw [a.concrete_of_not_key t (by rw [hcc]; exact List.not_mem_nil t)]
    rfl

theorem construct_caches_empty_witness :
    Abstractor.construct sample_fts = .ok sample_fresh ∧
      sample_fresh.abstraction_cache_.entries = [] ∧
      sample_fresh.concretization_cache_.entries = [] ∧
      ∀ t, returned (sample_fresh.abstract t) = .ok t ∧
        returned (sample_fresh.concrete t) = .ok t :=
  ⟨rfl, (construct_caches_empty sample_fts).1 sample_fresh rfl⟩

/-! ## Frame and totality of the lookups -/

/-- C8: `abstract` and `concrete` are pure lookups: for every Abstractor state
and every term `t`, key or not, the call returns and leaves the abstraction
cache, the concretization cache, the abstract system and the original system
as they were; after a miss `t` is still not a key of either cache. -/
theorem lookups_leave_state (a : Abstractor) (t : Term) :
    (∃ r s, a.abstract t = .ok (r, s) ∧
      s.abstraction_cache_ = a.abstraction_cache_ ∧
      s.concretization_cache_ = a.concretization_cache_ ∧
      s.abs_ts_ = a.abs_ts_ ∧ s.orig_ts_ = a.orig_ts_ ∧
      (s.abstraction_cache_.has_key t ↔ a.abstraction_cache_.has_key t) ∧
      (s.concretization_cache_.has_key t ↔ a.concretization_cache_.has_key t)) ∧
    (∃ r s, a.concrete t = .ok (r, s) ∧
      s.abstraction_cache_ = a.abstraction_cache_ ∧
      s.concretization_cache_ = a.concretization_cache_ ∧
      s.abs_ts_ = a.abs_ts_ ∧ s.orig_ts_ = a.orig_ts_ ∧
      (s.abstraction_cache_.has_key t ↔ a.abstraction_cache_.has_key t) ∧
      (s.concretization_cache_.has_key t ↔ a.concretization_cache_.has_key t)) ∧
    after (a.abstract t) = .ok a ∧ after (a.concrete t) = .ok a := by
  obtain ⟨r, hr⟩ := a.abstract_total t
  obtain ⟨r', hr'⟩ := a.concrete_total t
  refine ⟨⟨r, a, hr, rfl, rfl, rfl, rfl, Iff.rfl, Iff.rfl⟩,
    ⟨r', a, hr', rfl, rfl, rfl, rfl, Iff.rfl, Iff.rfl⟩, ?_, ?_⟩
  · rw [hr]
    rfl
  · rw [hr']
    rfl

/-- C9: `abstract` and `concrete` are total and never fail: in either cache,
whenever `find(t)` is not `end()` the checked access `at(t)` yields a term and
does not throw, and for every Abstractor state and every term `t` both calls
return a term, so neither raises any exception. -/
theorem lookups_never_fail (a : Abstractor) (t : Term) :
    ((a.abstraction_cache_.find t).isSome = true →
      ∃ u, a.abstraction_cache_.at_ t = .ok u) ∧
    ((a.concretization_cache_.find t).isSome = true →
      ∃ u, a.concretization_cache_.at_ t = .ok u) ∧
    (∃ r s, a.abstract t = .ok (r, s)) ∧ (∃ r s, a.concrete t = .ok (r, s)) ∧
    (∀ e, a.abstract t ≠ .error e) ∧ (∀ e, a.concrete t ≠ .error e) := by
  obtain ⟨r, hr⟩ := a.abstract_total t
  obtain ⟨r', hr'⟩ := a.concrete_total t
  refine ⟨fun h => ?_, fun h => ?_, ⟨r, a, hr⟩, ⟨r', a, hr'⟩, ?_, ?_⟩
  · obtain ⟨u, hu, _⟩ :=
      a.abstraction_cache_.at_of_has_key t ((a.abstraction_cache_.find_isSome_iff t).1 h)
    exact ⟨u, hu⟩
  · obtain ⟨u, hu, _⟩ :=
      a.concretization_cache_.at_of_has_key t
        ((a.concretization_cache_.find_isSome_iff t).1 h)
    exact ⟨u, hu⟩
  · intro e he
    rw [hr] at he
    cases he
  · intro e he
    rw [hr'] at he
    cases he

theorem lookups_never_fail_witness :
    (sample_abstractor.abstraction_cache_.find sample_x).isSome = true ∧
      ∃ u, sample_abstractor.abstraction_cache_.at_ sample_x = .ok u :=
  ⟨rfl, (lookups_never_fail sample_abstractor sample_x).1 rfl⟩

/-- C10 (scenario D): for every Abstractor state, every change made to the
abstract system through the reference returned by `abs_ts()` and every term
`t`, the calls `abstract(t)` and `concrete(t)` return after the change what
they returned before it. -/
theorem refinement_preserves_lookups (a : Abstractor)
    (f : TransitionSystem → TransitionSystem) (t : Term) :
    returned ((a.abs_ts_update f).abstract t) = returned (a.abstract t) ∧
    returned ((a.abs_ts_update f).concrete t) = returned (a.concrete t) :=
  ⟨returned_abstract_update a f t, returned_concrete_update a f t⟩

/-! ## Lemmas on cache writes -/

theorem UnorderedTermMap.has_key_iff (m : UnorderedTermMap) (t : Term) :
    m.has_key t ↔ ∃ u, m.maps t u := by
  constructor
  · intro h
    obtain ⟨u, _, hm⟩ := m.at_of_has_key t h
    exact ⟨u, hm⟩
  · rintro ⟨u, hm⟩
    exact m.has_key_of_maps t u hm

theorem UnorderedTermMap.maps_unique (m : UnorderedTermMap) (t u w : Term)
    (hu : m.maps t u) (hw : m.maps t w) : u = w := by
  have h1 := lookup_of_mem_nodup m.entries t u m.nodup_keys hu
  have h2 := lookup_of_mem_nodup m.entries t w m.nodup_keys hw
  rw [h1] at h2
  exact Option.some.inj h2

theorem UnorderedTermMap.maps_assign (m : UnorderedTermMap) (k v t u : Term) :
    (m.assign k v).maps t u ↔ (t = k ∧ u = v) ∨ (t ≠ k ∧ m.maps t u) := by
  unfold UnorderedTermMap.maps UnorderedTermMap.assign
  simp only [List.mem_cons, List.mem_filter, Prod.mk.injEq]
  constructor
  · rintro (h | ⟨hm, hne⟩)
    · exact Or.inl h
    · exact Or.inr ⟨by simpa using hne, hm⟩
  · rintro (h | ⟨hne, hm⟩)
    · exact Or.inl h
    · exact Or.inr ⟨hm, by simpa using hne⟩

theorem UnorderedTermMap.insert_of_has_key (m : UnorderedTermMap) (k v : Term)
    (h : m.has_key k) : m.insert k v = m := by
  have h' : k ∈ m.entries.map Prod.fst := h
  unfold UnorderedTermMap.insert
  exact dif_pos h'

theorem UnorderedTermMap.maps_insert_fresh (m : UnorderedTermMap) (k v t u : Term)
    (h : ¬ m.has_key k) :
    (m.insert k v).maps t u ↔ (t = k ∧ u = v) ∨ (t ≠ k ∧ m.maps t u) := by
  have hi : (m.insert k v).entries = (k, v) :: m.entries := by
    have h' : ¬ k ∈ m.entries.map Prod.fst := h
    unfold UnorderedTermMap.insert
    rw [dif_neg h']
  unfold UnorderedTermMap.maps
  rw [hi]
  simp only [List.mem_cons, Prod.mk.injEq]
  constructor
  · rintro (hkv | hm)
    · exact Or.inl hkv
    · refine Or.inr ⟨?_, hm⟩
      rintro rfl
      exact h (m.has_key_of_maps t u hm)
  · rintro (hkv | ⟨_, hm⟩)
    · exact Or.inl hkv
    · exact Or.inr hm

theorem returned_abstract_congr (a b : Abstractor) (t : Term)
    (h : ∀ u, a.abstraction_cache_.maps t u ↔ b.abstraction_cache_.maps t u) :
    returned (a.abstract t) = returned (b.abstract t) := by
  by_cases hk : a.abstraction_cache_.has_key t
  · obtain ⟨u, hu⟩ := (a.abstraction_cache_.has_key_iff t).1 hk
    rw [a.abstract_of_maps t u hu, b.abstract_of_maps t u ((h u).1 hu)]
    rfl
  · have hb : ¬ b.abstraction_cache_.has_key t := by
      intro hbk
      obtain ⟨u, hu⟩ := (b.abstraction_cache_.has_key_iff t).1 hbk
      exact hk (a.abstraction_cache_.has_key_of_maps t u ((h u).2 hu))
    rw [a.abstract_of_not_key t hk, b.abstract_of_not_key t hb]
    rfl

theorem returned_concrete_congr (a b : Abstractor) (t : Term)
    (h : ∀ u, a.concretization_cache_.maps t u ↔ b.concretization_cache_.maps t u) :
    returned (a.concrete t) = returned (b.concrete t) := by
  by_cases hk : a.concretization_cache_.has_key t
  · obtain ⟨u, hu⟩ := (a.concretization_cache_.has_key_iff t).1 hk
    rw [a.concrete_of_maps t u hu, b.concrete_of_maps t u ((h u).1 hu)]
    rfl
  · have hb : ¬ b.concretization_cache_.has_key t := by
      intro hbk
      obtain ⟨u, hu⟩ := (b.concretization_cache_.has_key_iff t).1 hbk
      exact hk (a.concretization_cache_.has_key_of_maps t u ((h u).2 hu))
    rw [a.concrete_of_not_key t hk, b.concrete_of_not_key t hb]
    rfl

theorem returned_abstract_of_maps (a : Abstractor) (t u : Term)
    (h : a.abstraction_cache_.maps t u) : returned (a.abstract t) = .ok u := by
  rw [a.abstract_of_maps t u h]
  rfl

theorem returned_concrete_of_maps (a : Abstractor) (t u : Term)
    (h : a.concretization_cache_.maps t u) : returned (a.concrete t) = .ok u := by
  rw [a.concrete_of_maps t u h]
  rfl

/-! ## The original system, the population hook and construction failure -/

/-- C11 (invariant I2): the Abstractor constructed over `ts` refers to `ts`
unchanged, every sequence of operations from there runs to a state whose
original system is still `ts`, and a write through the reference returned by
`abs_ts()` does not touch the original system either. -/
theorem original_never_mutated (ts : TransitionSystem) (a0 : Abstractor)
    (ops : List Op) (h0 : Abstractor.construct ts = .ok a0) :
    a0.orig_ts_ = ts ∧
      ∃ a, a0.run ops = .ok a ∧ a.orig_ts_ = ts ∧
        ∀ f, (a.abs_ts_update f).orig_ts_ = ts := by
  obtain ⟨ho, _, _, _⟩ := Abstractor.construct_ok ts a0 h0
  obtain ⟨a, ha, hao, _⟩ := Abstractor.run_ok ops a0
  exact ⟨ho, a, ha, hao.trans ho, fun _ => hao.trans ho⟩

theorem original_never_mutated_witness :
    Abstractor.construct sample_fts = .ok sample_fresh ∧
      sample_fresh.orig_ts_ = sample_fts ∧
      ∃ a, sample_fresh.run sample_ops = .ok a ∧ a.orig_ts_ = sample_fts ∧
        ∀ f, (a.abs_ts_update f).orig_ts_ = sample_fts :=
  ⟨rfl, original_never_mutated sample_fts sample_fresh sample_ops rfl⟩

/-- C12: the base `do_abstraction` is a NOP: for every Abstractor state it
returns and leaves the abstraction cache, the concretization cache, the
abstract system and the original system as they were, so when both caches
were empty before it, `abstract` and `concrete` still return their argument
for every term after it. -/
theorem do_abstraction_nop (a : Abstractor) :
    a.do_abstraction = .ok ((), a) ∧
    (∃ s, after a.do_abstraction = .ok s ∧
      s.abstraction_cache_ = a.abstraction_cache_ ∧
      s.concretization_cache_ = a.concretization_cache_ ∧
      s.abs_ts_ = a.abs_ts_ ∧ s.orig_ts_ = a.orig_ts_) ∧
    (a.abstraction_cache_.entries = [] → a.concretization_cache_.entries = [] →
      ∀ s, after a.do_abstraction = .ok s →
        ∀ t, returned (s.abstract t) = .ok t ∧ returned (s.concrete t) = .ok t) := by
  refine ⟨rfl, ⟨a, rfl, rfl, rfl, rfl, rfl⟩, fun hac hcc s hs t => ?_⟩
  have hsa : s = a := by
    have : (Except.ok a : Except Exception Abstractor) = .ok s := hs
    exact (Except.ok.inj this).symm
  subst hsa
  constructor
  · rw [s.abstract_of_not_key t
      (by unfold UnorderedTermMap.has_key UnorderedTermMap.keys
          rw [hac]; exact List.not_mem_nil t)]
    rfl
  · rw [s.concrete_of_not_key t
      (by unfold UnorderedTermMap.has_key UnorderedTermMap.keys
          rw [hcc]; exact List.not_mem_nil t)]
    rfl

theorem do_abstraction_nop_witness :
    sample_fresh.abstraction_cache_.entries = [] ∧
      sample_fresh.concretization_cache_.entries = [] ∧
      after sample_fresh.do_abstraction = .ok sample_fresh ∧
      ∀ t, returned (sample_fresh.abstract t) = .ok t ∧
        returned (sample_fresh.concrete t) = .ok t :=
  ⟨rfl, rfl, rfl, (do_abstraction_nop sample_fresh).2.2 rfl rfl sample_fresh rfl⟩

/-- C13: construction fails with a ConfigurationError when the term context of
the original system cannot be shared with the fresh system of the required
variant; that is the only failure of construction; on a context that can be
shared construction succeeds and yields an Abstractor. -/
theorem construct_fails_only_on_context (ts : TransitionSystem) :
    (ts.solver.shareable = false →
      Abstractor.construct ts = .error Exception.ConfigurationError) ∧
    (∀ e, Abstractor.construct ts = .error e →
      e = Exception.ConfigurationError ∧ ts.solver.shareable = false) ∧
    (ts.solver.shareable = true → ∃ a, Abstractor.construct ts = .ok a) := by
  have hfail : ts.solver.shareable = false →
      Abstractor.construct ts = .error Exception.ConfigurationError := by
    intro hs
    unfold Abstractor.construct FunctionalTransitionSystem RelationalTransitionSystem
    by_cases hf : ts.is_functional = true
    · rw [if_pos hf, hs]
      rfl
    · rw [if_neg hf, hs]
      rfl
  refine ⟨hfail, fun e he => ?_, Abstractor.construct_succeeds ts⟩
  cases hs : ts.solver.shareable
  · rw [hfail hs] at he
    exact ⟨(Except.error.inj he).symm, rfl⟩
  · obtain ⟨a, ha⟩ := Abstractor.construct_succeeds ts hs
    rw [ha] at he
    cases he

theorem construct_fails_only_on_context_witness :
    sample_closed_rts.solver.shareable = false ∧
      Abstractor.construct sample_closed_rts = .error Exception.ConfigurationError :=
  ⟨rfl, (construct_fails_only_on_context sample_closed_rts).1 rfl⟩

/-! ## Scenario C and writes to the caches -/

/-- C14 (scenario C): for distinct terms `x` and `p0`, when the abstraction
cache is exactly `{x -> p0}` and the concretization cache is exactly
`{p0 -> x}`, `abstract(x)` returns `p0`, `concrete(p0)` returns `x`,
`abstract(p0)` returns `p0` and `concrete(x)` returns `x`. -/
theorem scenario_c (a : Abstractor) (x p0 : Term) (hne : x ≠ p0)
    (ha : a.abstraction_cache_.entries = [(x, p0)])
    (hc : a.concretization_cache_.entries = [(p0, x)]) :
    returned (a.abstract x) = .ok p0 ∧ returned (a.concrete p0) = .ok x ∧
    returned (a.abstract p0) = .ok p0 ∧ returned (a.concrete x) = .ok x := by
  refine ⟨?_, ?_, ?_, ?_⟩
  · exact returned_abstract_of_maps a x p0
      (by unfold UnorderedTermMap.maps; rw [ha]; exact List.mem_singleton.2 rfl)
  · exact returned_concrete_of_maps a p0 x
      (by unfold UnorderedTermMap.maps; rw [hc]; exact List.mem_singleton.2 rfl)
  · rw [a.abstract_of_not_key p0
      (by unfold UnorderedTermMap.has_key UnorderedTermMap.keys
          rw [ha]
          intro h
          exact hne (List.mem_singleton.1 h).symm)]
    rfl
  · rw [a.concrete_of_not_key x
      (by unfold UnorderedTermMap.has_key UnorderedTermMap.keys
          rw [hc]
          intro h
          exact hne (List.mem_singleton.1 h))]
    rfl

theorem scenario_c_witness :
    returned (sample_abstractor.abstract sample_x) = .ok sample_p0 ∧
      returned (sample_abstractor.concrete sample_p0) = .ok sample_x ∧
      returned (sample_abstractor.abstract sample_p0) = .ok sample_p0 ∧
      returned (sample_abstractor.concrete sample_x) = .ok sample_x :=
  scenario_c sample_abstractor sample_x sample_p0 (by decide) rfl rfl

theorem assign_abstraction_lookups (a : Abstractor) (k v : Term) :
    returned ((a.assign_abstraction k v).abstract k) = .ok v ∧
    (∀ t, t ≠ k →
      returned ((a.assign_abstraction k v).abstract t) = returned (a.abstract t)) ∧
    (∀ t, returned ((a.assign_abstraction k v).concrete t) = returned (a.concrete t)) := by
  refine ⟨?_, fun t ht => ?_, fun t => ?_⟩
  · exact returned_abstract_of_maps _ k v
      ((a.abstraction_cache_.maps_assign k v k v).2 (Or.inl ⟨rfl, rfl⟩))
  · refine returned_abstract_congr _ a t (fun u => ?_)
    refine Iff.trans (a.abstraction_cache_.maps_assign k v t u) ?_
    constructor
    · rintro (⟨h, _⟩ | ⟨_, h⟩)
      · exact absurd h ht
      · exact h
    · exact fun h => Or.inr ⟨ht, h⟩
  · exact returned_concrete_congr _ a t (fun _ => Iff.rfl)

theorem assign_concretization_lookups (a : Abstractor) (k v : Term) :
    returned ((a.assign_concretization k v).concrete k) = .ok v ∧
    (∀ t, t ≠ k →
      returned ((a.assign_concretization k v).concrete t) = returned (a.concrete t)) ∧
    (∀ t, returned ((a.assign_concretization k v).abstract t) = returned (a.abstract t)) := by
  refine ⟨?_, fun t ht => ?_, fun t => ?_⟩
  · exact returned_concrete_of_maps _ k v
      ((a.concretization_cache_.maps_assign k v k v).2 (Or.inl ⟨rfl, rfl⟩))
  · refine returned_concrete_congr _ a t (fun u => ?_)
    refine Iff.trans (a.concretization_cache_.maps_assign k v t u) ?_
    constructor
    · rintro (⟨h, _⟩ | ⟨_, h⟩)
      · exact absurd h ht
      · exact h
    · exact fun h => Or.inr ⟨ht, h⟩
  · exact returned_abstract_congr _ a t (fun _ => Iff.rfl)

theorem insert_abstraction_lookups (a : Abstractor) (k v : Term)
    (hk : ¬ a.abstraction_cache_.has_key k) :
    returned ((a.insert_abstraction k v).abstract k) = .ok v ∧
    (∀ t, t ≠ k →
      returned ((a.insert_abstraction k v).abstract t) = returned (a.abstract t)) ∧
    (∀ t, returned ((a.insert_abstraction k v).concrete t) = returned (a.concrete t)) := by
  refine ⟨?_, fun t ht => ?_, fun t => ?_⟩
  · exact returned_abstract_of_maps _ k v
      ((a.abstraction_cache_.maps_insert_fresh k v k v hk).2 (Or.inl ⟨rfl, rfl⟩))
  · refine returned_abstract_congr _ a t (fun u => ?_)
    refine Iff.trans (a.abstraction_cache_.maps_insert_fresh k v t u hk) ?_
    constructor
    · rintro (⟨h, _⟩ | ⟨_, h⟩)
      · exact absurd h ht
      · exact h
    · exact fun h => Or.inr ⟨ht, h⟩
  · exact returned_concrete_congr _ a t (fun _ => Iff.rfl)

theorem insert_concretization_lookups (a : Abstractor) (k v : Term)
    (hk : ¬ a.concretization_cache_.has_key k) :
    returned ((a.insert_concretization k v).concrete k) = .ok v ∧
    (∀ t, t ≠ k →
      returned ((a.insert_concretization k v).concrete t) = returned (a.concrete t)) ∧
    (∀ t, returned ((a.insert_concretization k v).abstract t) = returned (a.abstract t)) := by
  refine ⟨?_, fun t ht => ?_, fun t => ?_⟩
  · exact returned_concrete_of_maps _ k v
      ((a.concretization_cache_.maps_insert_fresh k v k v hk).2 (Or.inl ⟨rfl, rfl⟩))
  · refine returned_concrete_congr _ a t (fun u => ?_)
    refine Iff.trans (a.concretization_cache_.maps_insert_fresh k v t u hk) ?_
    constructor
    · rintro (⟨h, _⟩ | ⟨_, h⟩)
      · exact absurd h ht
      · exact h
    · exact fun h => Or.inr ⟨ht, h⟩
  · exact returned_abstract_congr _ a t (fun _ => Iff.rfl)

theorem Abstractor.abstract_of_abstract_eq (a : Abstractor) (t r : Term)
    (h : a.abstract t = .ok (r, a)) : a.abstract_of_abstract t = a.abstract r := by
  unfold Abstractor.abstract_of_abstract
  rw [h]

theorem Abstractor.concrete_of_abstract_eq (a : Abstractor) (t r : Term)
    (h : a.abstract t = .ok (r, a)) : a.concrete_of_abstract t = a.concrete r := by
  unfold Abstractor.concrete_of_abstract
  rw [h]

/-- C15 (insert locality): for every Abstractor state and terms `k`, `v`,
writing the mapping `abstraction_cache_[k] = v` makes `abstract(k)` return `v`,
leaves what `abstract(t)` returns unchanged for every `t` other than `k`, and
leaves what `concrete(t)` returns unchanged for every `t`; symmetrically for a
write to the concretization cache. The same holds for
`unordered_map::insert` of `{k, v}` when `k` is not yet a key. -/
theorem insert_locality (a : Abstractor) (k v : Term) :
    (returned ((a.assign_abstraction k v).abstract k) = .ok v ∧
      (∀ t, t ≠ k →
        returned ((a.assign_abstraction k v).abstract t) = returned (a.abstract t)) ∧
      (∀ t, returned ((a.assign_abstraction k v).concrete t) = returned (a.concrete t))) ∧
    (returned ((a.assign_concretization k v).concrete k) = .ok v ∧
      (∀ t, t ≠ k →
        returned ((a.assign_concretization k v).concrete t) = returned (a.concrete t)) ∧
      (∀ t, returned ((a.assign_concretization k v).abstract t) = returned (a.abstract t))) ∧
    (¬ a.abstraction_cache_.has_key k →
      returned ((a.insert_abstraction k v).abstract k) = .ok v ∧
      (∀ t, t ≠ k →
        returned ((a.insert_abstraction k v).abstract t) = returned (a.abstract t)) ∧
      (∀ t, returned ((a.insert_abstraction k v).concrete t) = returned (a.concrete t))) ∧
    (¬ a.concretization_cache_.has_key k →
      returned ((a.insert_concretization k v).concrete k) = .ok v ∧
      (∀ t, t ≠ k →
        returned ((a.insert_concretization k v).concrete t) = returned (a.concrete t)) ∧
      (∀ t, returned ((a.insert_concretization k v).abstract t) = returned (a.abstract t))) :=
  ⟨assign_abstraction_lookups a k v, assign_concretization_lookups a k v,
    insert_abstraction_lookups a k v, insert_concretization_lookups a k v⟩

theorem insert_locality_witness :
    ¬ sample_fresh.abstraction_cache_.has_key sample_x ∧
      returned ((sample_fresh.insert_abstraction sample_x sample_p0).abstract sample_x)
        = .ok sample_p0 ∧
      returned ((sample_abstractor.assign_abstraction sample_x sample_p1).abstract sample_x)
        = .ok sample_p1 :=
  ⟨by decide, ((insert_locality sample_fresh sample_x sample_p0).2.2.1 (by decide)).1,
    (insert_locality sample_abstractor sample_x sample_p1).1.1⟩

/-- C16 (cache independence): two Abstractor states with equal abstraction
caches return the same from `abstract(t)` for every `t`, whatever their
concretization caches, abstract systems and original systems are, and two
states with equal concretization caches return the same from `concrete(t)`;
it is enough that the caches hold the same mappings. -/
theorem cache_independence (a b : Abstractor) (t : Term) :
    (a.abstraction_cache_ = b.abstraction_cache_ →
      returned (a.abstract t) = returned (b.abstract t)) ∧
    (a.concretization_cache_ = b.concretization_cache_ →
      returned (a.concrete t) = returned (b.concrete t)) ∧
    ((∀ k u, a.abstraction_cache_.maps k u ↔ b.abstraction_cache_.maps k u) →
      returned (a.abstract t) = returned (b.abstract t)) ∧
    ((∀ k u, a.concretization_cache_.maps k u ↔ b.concretization_cache_.maps k u) →
      returned (a.concrete t) = returned (b.concrete t)) :=
  ⟨fun h => returned_abstract_congr a b t (fun _ => by rw [h]),
    fun h => returned_concrete_congr a b t (fun _ => by rw [h]),
    fun h => returned_abstract_congr a b t (h t),
    fun h => returned_concrete_congr a b t (h t)⟩

theorem cache_independence_witness :
    sample_abstractor.abstraction_cache_ = sample_refined.abstraction_cache_ ∧
      sample_abstractor.abs_ts_ ≠ sample_refined.abs_ts_ ∧
      sample_abstractor.orig_ts_ ≠ sample_refined.orig_ts_ ∧
      returned (sample_abstractor.abstract sample_x)
        = returned (sample_refined.abstract sample_x) :=
  ⟨rfl, by decide, by decide,
    (cache_independence sample_abstractor sample_refined sample_x).1 rfl⟩

/-! ## One-step lookup -/

/-- C17 (one-step lookup): `abstract` looks its argument up once and does not
follow chains: `abstract(abstract(t))` returns what `abstract(t)` returns for
every term `t` if and only if every value stored in the abstraction cache is
either not a key of it or mapped to itself; for a cache `{x -> y, y -> z}`
with `z` other than `y`, `abstract(abstract(x))` returns `z` while
`abstract(x)` returns `y`. -/
theorem abstract_idempotent_iff (a : Abstractor) :
    ((∀ t, returned (a.abstract_of_abstract t) = returned (a.abstract t)) ↔
      ∀ k u, a.abstraction_cache_.maps k u →
        ¬ a.abstraction_cache_.has_key u ∨ a.abstraction_cache_.maps u u) ∧
    (∀ x y z, z ≠ y → a.abstraction_cache_.entries = [(x, y), (y, z)] →
      returned (a.abstract_of_abstract x) = .ok z ∧
      returned (a.abstract x) = .ok y ∧
      returned (a.abstract_of_abstract x) ≠ returned (a.abstract x)) := by
  refine ⟨⟨fun h k u hku => ?_, fun h t => ?_⟩, fun x y z hzy he => ?_⟩
  · have hk := h k
    rw [a.abstract_of_abstract_eq k u (a.abstract_of_maps k u hku),
      returned_abstract_of_maps a k u hku] at hk
    by_cases hu : a.abstraction_cache_.has_key u
    · obtain ⟨w, hw⟩ := (a.abstraction_cache_.has_key_iff u).1 hu
      rw [returned_abstract_of_maps a u w hw] at hk
      have hwu : w = u := Except.ok.inj hk
      rw [hwu] at hw
      exact Or.inr hw
    · exact Or.inl hu
  · by_cases ht : a.abstraction_cache_.has_key t
    · obtain ⟨u, hu⟩ := (a.abstraction_cache_.has_key_iff t).1 ht
      rw [a.abstract_of_abstract_eq t u (a.abstract_of_maps t u hu),
        returned_abstract_of_maps a t u hu]
      rcases h t u hu with hnk | hself
      · rw [a.abstract_of_not_key u hnk]
        rfl
      · exact returned_abstract_of_maps a u u hself
    · rw [a.abstract_of_abstract_eq t t (a.abstract_of_not_key t ht)]
  · have hxy : a.abstraction_cache_.maps x y := by
      unfold UnorderedTermMap.maps
      rw [he]
      exact List.mem_cons_self _ _
    have hyz : a.abstraction_cache_.maps y z := by
      unfold UnorderedTermMap.maps
      rw [he]
      exact List.mem_cons_of_mem _ (List.mem_singleton.2 rfl)
    have h1 : returned (a.abstract_of_abstract x) = .ok z := by
      rw [a.abstract_of_abstract_eq x y (a.abstract_of_maps x y hxy)]
      exact returned_abstract_of_maps a y z hyz
    have h2 := returned_abstract_of_maps a x y hxy
    refine ⟨h1, h2, ?_⟩
    rw [h1, h2]
    intro hc
    exact hzy (Except.ok.inj hc)

theorem abstract_idempotent_iff_witness :
    sample_p1 ≠ sample_p0 ∧
      returned (sample_chain.abstract_of_abstract sample_x) = .ok sample_p1 ∧
      returned (sample_chain.abstract sample_x) = .ok sample_p0 ∧
      returned (sample_chain.abstract_of_abstract sample_x)
        ≠ returned (sample_chain.abstract sample_x) :=
  ⟨by decide,
    (abstract_idempotent_iff sample_chain).2 sample_x sample_p0 sample_p1 (by decide) rfl⟩

/-- C18 (round trip is not total): for the caches
`abstraction_cache_ = {x -> p0}` and `concretization_cache_ = {p0 -> x}` with
`x` other than `p0`, `concrete(abstract(p0))` returns `x` and not `p0`; for
every term `t` that is a key of neither cache, `concrete(abstract(t))`
returns `t`. -/
theorem round_trip_not_total (a : Abstractor) :
    (∀ x p0, x ≠ p0 → a.abstraction_cache_.entries = [(x, p0)] →
      a.concretization_cache_.entries = [(p0, x)] →
      returned (a.concrete_of_abstract p0) = .ok x ∧
      returned (a.concrete_of_abstract p0) ≠ .ok p0) ∧
    (∀ t, ¬ a.abstraction_cache_.has_key t → ¬ a.concretization_cache_.has_key t →
      returned (a.concrete_of_abstract t) = .ok t) := by
  refine ⟨fun x p0 hne ha hc => ?_, fun t hta htc => ?_⟩
  · have hnk : ¬ a.abstraction_cache_.has_key p0 := by
      unfold UnorderedTermMap.has_key UnorderedTermMap.keys
      rw [ha]
      intro h
      exact hne (List.mem_singleton.1 h).symm
    have hm : a.concretization_cache_.maps p0 x := by
      unfold UnorderedTermMap.maps
      rw [hc]
      exact List.mem_singleton.2 rfl
    have h1 : returned (a.concrete_of_abstract p0) = .ok x := by
      rw [a.concrete_of_abstract_eq p0 p0 (a.abstract_of_not_key p0 hnk)]
      exact returned_concrete_of_maps a p0 x hm
    refine ⟨h1, ?_⟩
    rw [h1]
    intro h
    exact hne (Except.ok.inj h)
  · rw [a.concrete_of_abstract_eq t t (a.abstract_of_not_key t hta),
      a.concrete_of_not_key t htc]
    rfl

theorem round_trip_not_total_witness :
    sample_x ≠ sample_p0 ∧
      returned (sample_abstractor.concrete_of_abstract sample_p0) = .ok sample_x ∧
      returned (sample_abstractor.concrete_of_abstract sample_p0) ≠ .ok sample_p0 :=
  ⟨by decide,
    (round_trip_not_total sample_abstractor).1 sample_x sample_p0 (by decide) rfl rfl⟩
